import Mathlib

/-!
Verification development for the NSW food-penalty pipeline
(`2_geocode.py` and `3_group_locations.py`).

The Python code is shallowly embedded: strings are `String`/`List Char`,
Python floats are modelled as exact rationals `ℚ`, Python dicts as
association lists whose assignment overwrites in place, and the external
Nominatim geocoder as an oracle `String → Option (ℚ × ℚ)`.

Rational arithmetic is written with `mkRat`/`Rat.neg` and `decide`-based
comparisons so that every definition evaluates inside the kernel.
-/

/-! ## Python string primitives -/

/-- The ASCII whitespace stripped by Python `str.strip()` and matched by
the regex class `\s`: space, tab, LF, CR, VT, FF. -/
def pyIsSpace (c : Char) : Bool :=
  c = ' ' || c = '\t' || c = '\n' || c = '\r' || c = '\x0b' || c = '\x0c'

/-- Python `str.strip()`: drop whitespace from both ends. -/
def trimL (s : List Char) : List Char :=
  ((s.dropWhile pyIsSpace).reverse.dropWhile pyIsSpace).reverse

/-- Python `str.upper()` (all inputs of interest are ASCII). -/
def upperL (s : List Char) : List Char := s.map Char.toUpper

/-- Worker for whitespace collapsing: `prevWS` records whether the previous
character was whitespace, so each maximal whitespace run becomes one space.
This is `re.sub(r'\s+', ' ', s)`. -/
def collapseWSAux : Bool → List Char → List Char
  | _, [] => []
  | prevWS, c :: rest =>
    if pyIsSpace c then
      if prevWS then collapseWSAux true rest
      else ' ' :: collapseWSAux true rest
    else c :: collapseWSAux false rest

/-- Python substring containment `p in s`. -/
def isSubL (p : List Char) : List Char → Bool
  | [] => p.isEmpty
  | c :: rest => p.isPrefixOf (c :: rest) || isSubL p rest

/-- Fuel-driven worker for `removeAll`. The fuel only bounds the recursion;
`s.length + 1` is always enough because every step consumes at least one
character of `s` (the pattern is non-empty at every call site). -/
def removeAllF (pat : List Char) : Nat → List Char → List Char
  | 0, s => s
  | _ + 1, [] => []
  | fuel + 1, c :: rest =>
    if pat.isPrefixOf (c :: rest) then removeAllF pat fuel ((c :: rest).drop pat.length)
    else c :: removeAllF pat fuel rest

/-- Python `s.replace(pat, "")`: delete every (left-to-right, non-overlapping)
occurrence of `pat` anywhere in `s`. -/
def removeAll (pat s : List Char) : List Char :=
  if pat.isEmpty then s else removeAllF pat (s.length + 1) s

/-! ## `2_geocode.py` -/

/-- `normalize_address` (2_geocode.py, lines 28-30): strip, uppercase,
collapse whitespace runs to single spaces -- on character lists. -/
def normAddrL (s : List Char) : List Char :=
  collapseWSAux false (upperL (trimL s))

/-- `normalize_address` on strings. -/
def normalize_address (address : String) : String :=
  String.mk (normAddrL address.data)

/-- The delimiter class of `re.split(r'[,\s/\-]+', ...)` used when counting
tokens of an address remainder. -/
def isTokenDelim (c : Char) : Bool := c = ',' || c = '/' || c = '-' || pyIsSpace c

/-- Worker: split into maximal runs of non-delimiter characters (the Python
code splits and then filters out empty pieces). `cur` is the reversed
current token. -/
def splitTokensAux : List Char → List Char → List (List Char)
  | cur, [] => if cur.isEmpty then [] else [cur.reverse]
  | cur, c :: rest =>
    if isTokenDelim c then
      if cur.isEmpty then splitTokensAux [] rest
      else cur.reverse :: splitTokensAux [] rest
    else splitTokensAux (c :: cur) rest

/-- The non-empty tokens of an address remainder. -/
def splitTokens (s : List Char) : List (List Char) := splitTokensAux [] s

/-- The `special_chars` scan set of `generate_address_variants`: comma,
slash, dash, tab, LF, CR and space. -/
def isScanSpecial (c : Char) : Bool :=
  c = ',' || c = '/' || c = '-' || c = '\t' || c = '\n' || c = '\r' || c = ' '

/-- The scan loop of `generate_address_variants` (2_geocode.py, lines 43-63):
walk `current` from position `i`; at a special character take the trimmed
remainder after it; if it still has at least 4 tokens, record it (when
non-empty and different from the original address) and restart the scan on
it; otherwise stop. The fuel only bounds the recursion; `variantFuel` below
is always enough because each restart strictly shortens `current`
(see `variant_generation_terminates`). -/
def variantLoopF (full : List Char) : Nat → List Char → Nat → List (List Char) → List (List Char)
  | 0, _, _, acc => acc
  | fuel + 1, current, i, acc =>
    if h : i < current.length then
      if isScanSpecial (current.get ⟨i, h⟩) then
        let remaining := trimL (current.drop (i + 1))
        let tokens := splitTokens remaining
        if 4 ≤ tokens.length then
          let acc' := if ¬ remaining.isEmpty ∧ remaining ≠ full then acc ++ [remaining] else acc
          variantLoopF full fuel remaining 0 acc'
        else acc
      else variantLoopF full fuel current (i + 1) acc
    else acc

/-- Fuel that dominates the loop measure `len² + (len - i)`. -/
def variantFuel (n : Nat) : Nat := n * n + n + 1

/-- Order-preserving deduplication by normalized form (2_geocode.py,
lines 64-71); `seen` collects the normalized forms already emitted. -/
def dedupeNormAux : List (List Char) → List (List Char) → List (List Char)
  | _, [] => []
  | seen, v :: rest =>
    let nv := normAddrL v
    if nv ∈ seen then dedupeNormAux seen rest
    else v :: dedupeNormAux (nv :: seen) rest

/-- `generate_address_variants` (2_geocode.py, lines 33-72). -/
def generate_address_variants (full_address : String) : List String :=
  let fl := full_address.data
  let variants := fl :: variantLoopF fl (variantFuel fl.length) fl 0 []
  (dedupeNormAux [] variants).map String.mk

/-- The shared address cache: a Python dict from normalized address text to
a coordinate pair, modelled as an association list where assignment
overwrites the entry in place. -/
abbrev Cache := List (String × ℚ × ℚ)

def dictLookup : Cache → String → Option (ℚ × ℚ)
  | [], _ => none
  | (k, v) :: rest, key => if k = key then some v else dictLookup rest key

def dictInsert : Cache → String → ℚ × ℚ → Cache
  | [], key, v => [(key, v)]
  | (k, w) :: rest, key, v =>
    if k = key then (k, v) :: rest else (k, w) :: dictInsert rest key v

/-- One penalty-notice record (the fields the geocoding and grouping steps
read). `lat`/`lon` are `none` until geocoded. -/
structure Notice where
  penalty_notice_number : String := ""
  name : String := ""
  council : String := ""
  party_served : String := ""
  street : String := ""
  city : String := ""
  postal_code : String := ""
  full : String := ""
  lat : Option ℚ := none
  lon : Option ℚ := none
  date_issued : String := ""
deriving DecidableEq, Repr

/-- One entry of `failed_geocodings` (2_geocode.py, lines 215-220). -/
structure FailEntry where
  penalty_notice_number : String
  name : String
  address : String
  variants_tried : List String
deriving DecidableEq, Repr

/-- The inner variant loop of 2_geocode.py lines 187-211: try each variant
against the geocoder, stopping at the first hit. -/
def tryVariants (geocode : String → Option (ℚ × ℚ)) : List String → Option (ℚ × ℚ)
  | [] => none
  | v :: vs =>
    match geocode v with
    | some r => some r
    | none => tryVariants geocode vs

/-- Processing of a single record in the main loop of 2_geocode.py
(lines 158-221): skip records without address text, skip records that are
already geocoded, then try the cache keyed by the normalized full address,
then the variants against the geocoder; on success write the coordinates
onto the record and write the cache under every variant; on failure leave
the record untouched and emit one failure entry. -/
def processNotice (geocode : String → Option (ℚ × ℚ)) (cache : Cache) (n : Notice) :
    Notice × Cache × Option FailEntry :=
  if n.full = "" then (n, cache, none)
  else if n.lat.isSome && n.lon.isSome then (n, cache, none)
  else
    match dictLookup cache (normalize_address n.full) with
    | some (la, lo) => ({ n with lat := some la, lon := some lo }, cache, none)
    | none =>
      let variants := generate_address_variants n.full
      match tryVariants geocode variants with
      | some (la, lo) =>
        ({ n with lat := some la, lon := some lo },
         variants.foldl (fun c v => dictInsert c (normalize_address v) (la, lo)) cache,
         none)
      | none =>
        (n, cache, some ⟨n.penalty_notice_number, n.name, n.full, variants⟩)

/-- The whole geocoding batch: records in order, threading the cache;
returns the final cache, the updated records, and the failure list. -/
def processAll (geocode : String → Option (ℚ × ℚ)) (cache : Cache) :
    List Notice → Cache × List Notice × List FailEntry
  | [] => (cache, [], [])
  | n :: rest =>
    let step := processNotice geocode cache n
    let tail := processAll geocode step.2.1 rest
    (tail.1, step.1 :: tail.2.1,
     match step.2.2 with
     | some f => f :: tail.2.2
     | none => tail.2.2)

/-! ## `3_group_locations.py`: similarity scoring -/

/-- `normalize_name` (3_group_locations.py, lines 35-37). -/
def normalize_name (name : String) : String :=
  if name = "" then "" else String.mk (upperL (trimL name.data))

/-- `normalize_party_served` (3_group_locations.py, lines 70-79): strip and
uppercase, then delete every occurrence of the five company suffum-strings
in this order, then strip again. Note that Python `str.replace` removes the
pattern anywhere in the string, not only as a suffix. -/
def normalize_party_served (party : String) : String :=
  if party = "" then ""
  else
    let n0 := upperL (trimL party.data)
    let n1 := removeAll " PTY LTD".data n0
    let n2 := removeAll " PTY. LTD.".data n1
    let n3 := removeAll " PTY".data n2
    let n4 := removeAll " LTD".data n3
    let n5 := removeAll " LIMITED".data n4
    String.mk (trimL n5)

/-- Length of the common prefix of two character lists. -/
def cpl : List Char → List Char → Nat
  | a :: as, b :: bs => if a = b then cpl as bs + 1 else 0
  | _, _ => 0

/-- Model of difflib `SequenceMatcher.find_longest_match` over the whole
strings (no junk; the strings compared here are short, so the autojunk
heuristic never fires): the longest matching block, on ties the one that
starts earliest in `a` and then earliest in `b`. Returned as
`(size, start in a, start in b)`. -/
def findBest (a b : List Char) : Nat × Nat × Nat :=
  (List.range a.length).foldl (fun best i =>
    (List.range b.length).foldl (fun best j =>
      let k := cpl (a.drop i) (b.drop j)
      if best.1 < k then (k, i, j) else best) best) (0, 0, 0)

/-- Total size of the difflib matching blocks: take the longest matching
block and recurse on the pieces to its left and right. The fuel only bounds
the recursion; `a.length + b.length + 1` is always enough because each
recursive call strictly shrinks `a.length + b.length`. -/
def matchTotalF : Nat → List Char → List Char → Nat
  | 0, _, _ => 0
  | fuel + 1, a, b =>
    let best := findBest a b
    let k := best.1
    let i := best.2.1
    let j := best.2.2
    if k = 0 then 0
    else matchTotalF fuel (a.take i) (b.take j) + k
         + matchTotalF fuel (a.drop (i + k)) (b.drop (j + k))

def matchTotal (a b : List Char) : Nat := matchTotalF (a.length + b.length + 1) a b

/-- difflib `ratio()`: `2*M / (len a + len b)` as an exact rational
(and 1 when both strings are empty, as in `_calculate_ratio`). -/
def ratioQ (a b : List Char) : ℚ :=
  let t := a.length + b.length
  if t = 0 then 1 else mkRat ((2 * matchTotal a b : ℕ) : ℤ) t

/-- `name_similarity` (3_group_locations.py, lines 82-99). Python floats are
modelled as exact rationals: `0.70` is `mkRat 7 10` and `shorter/longer` is
the exact quotient. -/
def name_similarity (name1 name2 : String) : ℚ :=
  let norm1 := normalize_name name1
  let norm2 := normalize_name name2
  if norm1 = "" ∨ norm2 = "" then 0
  else if isSubL norm1.data norm2.data || isSubL norm2.data norm1.data then
    let longer := max norm1.length norm2.length
    let shorter := min norm1.length norm2.length
    if 0 < longer then
      let q := mkRat (shorter : ℤ) longer
      if q < mkRat 7 10 then mkRat 7 10 else q
    else ratioQ norm1.data norm2.data
  else ratioQ norm1.data norm2.data

/-! ## `3_group_locations.py`: grouping -/

/-- `COORDINATE_EPSILON = 0.0001`. -/
def COORDINATE_EPSILON : ℚ := mkRat 1 10000

/-- `NAME_SIMILARITY_THRESHOLD_EXACT_COORDS = 0.60`. -/
def NAME_SIMILARITY_THRESHOLD_EXACT_COORDS : ℚ := mkRat 6 10

/-- `NAME_SIMILARITY_THRESHOLD = 0.85` (the non-exact-coordinate threshold). -/
def NAME_SIMILARITY_THRESHOLD : ℚ := mkRat 85 100

/-- Exact rational subtraction, written through `mkRat` so that it evaluates
inside the kernel; `qsub_eq_sub` below shows it is ordinary subtraction. -/
def qsub (a b : ℚ) : ℚ :=
  mkRat (a.num * (b.den : ℤ) - b.num * (a.den : ℤ)) (a.den * b.den)

/-- Python `abs` on a rational. -/
def qabs (q : ℚ) : ℚ := if q < 0 then Rat.neg q else q

/-- `coordinates_match` (3_group_locations.py, lines 102-104). -/
def coordinates_match (lat1 lon1 lat2 lon2 : ℚ) : Bool :=
  decide (qabs (qsub lat1 lat2) < COORDINATE_EPSILON) &&
  decide (qabs (qsub lon1 lon2) < COORDINATE_EPSILON)

/-- One output location group: name, address and council seeded from the
record that created the group, `party_served` filled lazily, and the list
of member penalties. -/
structure LocGroup where
  name : String
  street : String
  city : String
  postal_code : String
  full : String
  lat : ℚ
  lon : ℚ
  council : String
  party_served : String
  penalties : List Notice
deriving DecidableEq, Repr

/-- The `party_match` computation of 3_group_locations.py lines 171-176:
both raw values non-empty, both normalized values non-empty and equal. -/
def party_matchB (p gp : String) : Bool :=
  if p != "" && gp != "" then
    let n1 := normalize_party_served p
    let n2 := normalize_party_served gp
    n1 != "" && n2 != "" && n1 == n2
  else false

/-- The `party_mismatch` computation of 3_group_locations.py lines 193-198:
both raw values non-empty, both normalized values non-empty and different. -/
def party_mismatchB (p gp : String) : Bool :=
  if p != "" && gp != "" then
    let n1 := normalize_party_served p
    let n2 := normalize_party_served gp
    n1 != "" && n2 != "" && n1 != n2
  else false

/-- The per-group matching test of the grouping loop (3_group_locations.py,
lines 158-202), including the dead `threshold` selection: inside the
`coords_match` branch the code still selects between the exact-coordinate
threshold and the 0.85 one based on `coords_match`. -/
def matchesGroup (n : Notice) (g : LocGroup) : Bool :=
  let lat := n.lat.getD 0
  let lon := n.lon.getD 0
  let coords_ok := coordinates_match lat lon g.lat g.lon
  if coords_ok then
    if party_matchB n.party_served g.party_served then true
    else
      let similarity := name_similarity n.name g.name
      let threshold := if coords_ok then NAME_SIMILARITY_THRESHOLD_EXACT_COORDS
                       else NAME_SIMILARITY_THRESHOLD
      decide (threshold ≤ similarity) && !(party_mismatchB n.party_served g.party_served)
  else false

/-- Like `matchesGroup` but with the threshold fixed to the exact-coordinate
one; `threshold_branch_dead` below proves the two agree everywhere, i.e.
the 0.85 branch is unreachable. -/
def matchesGroupExactOnly (n : Notice) (g : LocGroup) : Bool :=
  let lat := n.lat.getD 0
  let lon := n.lon.getD 0
  let coords_ok := coordinates_match lat lon g.lat g.lon
  if coords_ok then
    if party_matchB n.party_served g.party_served then true
    else
      let similarity := name_similarity n.name g.name
      decide (NAME_SIMILARITY_THRESHOLD_EXACT_COORDS ≤ similarity) &&
        !(party_mismatchB n.party_served g.party_served)
  else false

/-- Creation of a new group from a record (3_group_locations.py,
lines 213-229). -/
def newGroup (n : Notice) : LocGroup :=
  { name := n.name, street := n.street, city := n.city,
    postal_code := n.postal_code, full := n.full,
    lat := n.lat.getD 0, lon := n.lon.getD 0,
    council := n.council, party_served := n.party_served, penalties := [n] }

/-- Appending a record to a matched group (3_group_locations.py,
lines 207-212): the penalty is appended and `party_served` is filled when
the group's is still empty and the record's is not. -/
def mergeInto (g : LocGroup) (n : Notice) : LocGroup :=
  { g with penalties := g.penalties ++ [n],
           party_served := if g.party_served == "" && n.party_served != ""
                           then n.party_served else g.party_served }

/-- One step of the grouping loop: scan the existing groups in creation
order, merge into the first match, otherwise append a new group at the
end. The caller only passes geocoded records, mirroring the filter of
lines 126-141. -/
def addToGroups (n : Notice) : List LocGroup → List LocGroup
  | [] => [newGroup n]
  | g :: gs => if matchesGroup n g then mergeInto g n :: gs else g :: addToGroups n gs

def addNotice (groups : List LocGroup) (n : Notice) : List LocGroup :=
  addToGroups n groups

/-- Stable insertion of `x` into `l`: `x` is placed before the first element
`y` with `le x y`; with `le x y = key x ≤ key y` this keeps earlier-input
elements ahead on key ties, as Python's stable `list.sort` does. -/
def orderedInsert (le : α → α → Bool) (x : α) : List α → List α
  | [] => [x]
  | y :: t => if le x y then x :: y :: t else y :: orderedInsert le x t

/-- Stable sort (model of Python `list.sort`; the stable sort of a list under
a total key order is unique, so insertion sort is an exact model). -/
def insertionSort (le : α → α → Bool) : List α → List α
  | [] => []
  | x :: t => orderedInsert le x (insertionSort le t)

/-- Whether a record carries coordinates (3_group_locations.py lines 126-138
keep exactly these records). -/
def isGeocoded (n : Notice) : Bool := n.lat.isSome && n.lon.isSome

/-- Python string comparison `a <= b`: lexicographic on code points. -/
def strLeB : List Char → List Char → Bool
  | [], _ => true
  | _ :: _, [] => false
  | c :: as, d :: bs => if c = d then strLeB as bs else decide (c.toNat < d.toNat)

/-- `groups.sort(key=lambda g: normalize_name(g["name"]))`. -/
def sortGroups (groups : List LocGroup) : List LocGroup :=
  insertionSort
    (fun g1 g2 => strLeB (normalize_name g1.name).data (normalize_name g2.name).data) groups

/-- `group["penalties"].sort(key=..., reverse=True)`: stable descending by
`date_issued` (the record model already stores a missing date as `""`). -/
def sortPenalties (ps : List Notice) : List Notice :=
  insertionSort (fun p q => strLeB q.date_issued.data p.date_issued.data) ps

/-- The whole grouping pass of `main` (3_group_locations.py): drop ungeocoded
records, fold the records into groups, sort the groups by normalized name
and each group's penalties by date descending. -/
def runGrouping (notices : List Notice) : List LocGroup :=
  let geocoded := notices.filter isGeocoded
  let groups := geocoded.foldl addNotice []
  (sortGroups groups).map (fun g => { g with penalties := sortPenalties g.penalties })

/-! ## Spec-level predicates built from the code -/

/-- `partyIdentity` of the spec as the code computes it (3_group_locations.py
lines 170-176 and 193-198 both use exactly this normalized comparison):
the two values normalize to equal non-empty strings. -/
def partyIdentity (a b : String) : Bool :=
  let n1 := normalize_party_served a
  let n2 := normalize_party_served b
  n1 != "" && n2 != "" && n1 == n2

/-- Strip `suf` from the end of `s` once, when it is a suffix. -/
def stripSuffixOnce (suf s : List Char) : List Char :=
  if suf.isSuffixOf s then s.take (s.length - suf.length) else s

/-- The normalization that claim C3 describes: trim and uppercase, then
strip each of the five company suffixes once, in priority order, as a
suffix only (not anywhere in the string, not recursively). -/
def claimPartyNormalize (party : String) : String :=
  let n0 := upperL (trimL party.data)
  let n1 := stripSuffixOnce " PTY LTD".data n0
  let n2 := stripSuffixOnce " PTY. LTD.".data n1
  let n3 := stripSuffixOnce " PTY".data n2
  let n4 := stripSuffixOnce " LTD".data n3
  let n5 := stripSuffixOnce " LIMITED".data n4
  String.mk n5

/-- The merge test exactly as claim C1 words it: coordinates match, and
either (a) both partyServed values non-empty and partyIdentity holds, or
(b) name similarity at least 0.60 and not (both partyServed values
non-empty with partyIdentity false). -/
def claimMatchB (n : Notice) (g : LocGroup) : Bool :=
  coordinates_match (n.lat.getD 0) (n.lon.getD 0) g.lat g.lon &&
  ((n.party_served != "" && g.party_served != "" &&
      partyIdentity n.party_served g.party_served) ||
   (decide (NAME_SIMILARITY_THRESHOLD_EXACT_COORDS ≤ name_similarity n.name g.name) &&
    !(n.party_served != "" && g.party_served != "" &&
      !(partyIdentity n.party_served g.party_served))))

/-- The grouping step as claim C1 words it. -/
def claimAdd (n : Notice) : List LocGroup → List LocGroup
  | [] => [newGroup n]
  | g :: gs => if claimMatchB n g then mergeInto g n :: gs else g :: claimAdd n gs

/-- The merge test as amended: the blocker of branch (b) additionally
requires both partyServed values to *normalize* to non-empty strings; a
value that normalizes to empty (for example a whitespace-only value)
never blocks a merge. -/
def amendedMatchB (n : Notice) (g : LocGroup) : Bool :=
  coordinates_match (n.lat.getD 0) (n.lon.getD 0) g.lat g.lon &&
  ((n.party_served != "" && g.party_served != "" &&
      partyIdentity n.party_served g.party_served) ||
   (decide (NAME_SIMILARITY_THRESHOLD_EXACT_COORDS ≤ name_similarity n.name g.name) &&
    !(n.party_served != "" && g.party_served != "" &&
      normalize_party_served n.party_served != "" &&
      normalize_party_served g.party_served != "" &&
      !(partyIdentity n.party_served g.party_served))))

/-- The grouping step under the amended merge test. -/
def amendedAdd (n : Notice) : List LocGroup → List LocGroup
  | [] => [newGroup n]
  | g :: gs => if amendedMatchB n g then mergeInto g n :: gs else g :: amendedAdd n gs

/-! ## C3: party identity -/

/-- C3 counterexample: the code's `partyIdentity` deletes the company
patterns anywhere in the string (Python `str.replace`), not only as
suffixes, so it identifies "A PTY LTD B" with "A B", while the claimed
suffix-only normalization keeps them distinct. -/
theorem party_identity_counterexample :
    partyIdentity "A PTY LTD B" "A B" = true ∧
    ¬ (claimPartyNormalize "A PTY LTD B" = claimPartyNormalize "A B" ∧
       claimPartyNormalize "A PTY LTD B" ≠ "") := by
  decide

/-- C3 (amended): `partyIdentity(a, b)` is true iff after trimming and
uppercasing, deleting every occurrence of " PTY LTD", " PTY. LTD.",
" PTY", " LTD", " LIMITED" anywhere in the string (in that order, each
pass deleting all occurrences), and trimming again, the two results are
equal and non-empty; the two spec examples hold. -/
theorem party_identity_amended :
    (∀ a b : String, partyIdentity a b = true ↔
      (normalize_party_served a = normalize_party_served b ∧
       normalize_party_served a ≠ "")) ∧
    partyIdentity "Acme Pty Ltd" "ACME" = true ∧
    partyIdentity "Acme Ltd" "Beta Ltd" = false := by
  refine ⟨?_, by decide, by decide⟩
  intro a b
  constructor
  · intro h
    unfold partyIdentity at h
    simp only [Bool.and_eq_true, bne_iff_ne, beq_iff_eq] at h
    exact ⟨h.2, h.1.1⟩
  · intro h
    unfold partyIdentity
    simp only [Bool.and_eq_true, bne_iff_ne, beq_iff_eq]
    refine ⟨⟨h.2, ?_⟩, h.1⟩
    rw [← h.1]
    exact h.2

/-- Witness for the amended C3 statement at a concrete input. -/
theorem party_identity_amended_witness :
    partyIdentity "Acme Pty Ltd" "ACME" = true ↔
      (normalize_party_served "Acme Pty Ltd" = normalize_party_served "ACME" ∧
       normalize_party_served "Acme Pty Ltd" ≠ "") :=
  party_identity_amended.1 "Acme Pty Ltd" "ACME"

/-! ## C1: grouping merge rule -/

/-- The code's `party_match` is: both raw values non-empty and
`partyIdentity`. -/
theorem party_matchB_eq (p gp : String) :
    party_matchB p gp = (p != "" && gp != "" && partyIdentity p gp) := by
  simp only [party_matchB, partyIdentity]
  cases p != "" <;> cases gp != "" <;> simp

/-- The code's `party_mismatch` is: both raw values non-empty, both
normalized values non-empty, and `partyIdentity` false. -/
theorem party_mismatchB_eq (p gp : String) :
    party_mismatchB p gp =
      (p != "" && gp != "" && normalize_party_served p != "" &&
       normalize_party_served gp != "" && !(partyIdentity p gp)) := by
  simp only [party_mismatchB, partyIdentity]
  cases hA : p != "" <;> cases hB : gp != "" <;>
    cases hC : normalize_party_served p != "" <;>
    cases hD : normalize_party_served gp != "" <;>
    simp_all [bne]

/-- The code's per-group merge test coincides with the amended rule. -/
theorem matchesGroup_eq_amended (n : Notice) (g : LocGroup) :
    matchesGroup n g = amendedMatchB n g := by
  simp only [matchesGroup, amendedMatchB, party_matchB_eq, party_mismatchB_eq]
  cases hcm : coordinates_match (n.lat.getD 0) (n.lon.getD 0) g.lat g.lon <;>
    simp only [hcm, if_true, if_false, Bool.false_and, Bool.true_and]
  · rfl
  · simp only [partyIdentity]
    cases hA : n.party_served != "" <;> cases hB : g.party_served != "" <;>
      cases hC : normalize_party_served n.party_served != "" <;>
      cases hD : normalize_party_served g.party_served != "" <;>
      cases hE : normalize_party_served n.party_served ==
        normalize_party_served g.party_served <;>
      cases hS : decide (NAME_SIMILARITY_THRESHOLD_EXACT_COORDS ≤
        name_similarity n.name g.name) <;>
      simp_all

/-- A record whose partyServed is a single space: non-empty as a raw string,
but it normalizes to the empty string. -/
def cxNotice : Notice :=
  { name := "AA", party_served := " ",
    lat := some (mkRat 0 1), lon := some (mkRat 0 1) }

/-- A first record carrying a real partyServed at the same coordinates and
with the same name. -/
def cxSeed : Notice :=
  { name := "AA", party_served := "SMITH",
    lat := some (mkRat 0 1), lon := some (mkRat 0 1) }

/-- C1 counterexample: for a record whose `partyServed` is `" "` (non-empty,
but normalizing to empty) meeting a group with `partyServed` `"SMITH"` and
an identical name at identical coordinates, the claimed rule blocks the
merge (both values are non-empty and partyIdentity is false), but the code
merges: its blocker also requires both *normalized* values to be non-empty. -/
theorem grouping_merge_rule_counterexample :
    addToGroups cxNotice [newGroup cxSeed] ≠ claimAdd cxNotice [newGroup cxSeed] ∧
    (addToGroups cxNotice [newGroup cxSeed]).length = 1 ∧
    (claimAdd cxNotice [newGroup cxSeed]).length = 2 := by
  decide

/-- The record of the first C1 example. -/
def cEx1 : Notice :=
  { name := "ABC", party_served := "",
    lat := some (mkRat 0 1), lon := some (mkRat 0 1) }

/-- Same coordinates, empty partyServed, name of similarity 2/3 with
`cEx1`: above the 0.60 exact-coordinate threshold. -/
def cEx2 : Notice :=
  { name := "ABD", party_served := "",
    lat := some (mkRat 0 1), lon := some (mkRat 0 1) }

/-- The records of the second C1 example: names of similarity 6/7 (above
even the 0.85 threshold) but conflicting partyServed values. -/
def dEx1 : Notice :=
  { name := "ABCDEFG", party_served := "SMITH J",
    lat := some (mkRat 0 1), lon := some (mkRat 0 1) }

def dEx2 : Notice :=
  { name := "ABCDEFX", party_served := "JONES R",
    lat := some (mkRat 0 1), lon := some (mkRat 0 1) }

/-- C1 (amended): a geocoded record is appended to the first group (in
creation order) whose coordinates match within 0.0001 and for which either
(a) both partyServed values are non-empty and partyIdentity holds, or
(b) name similarity is at least 0.60 and it is not the case that both
partyServed values are non-empty, both normalize to non-empty strings, and
partyIdentity is false. Two records with identical coordinates, empty
partyServed and name similarity 2/3 (at least 0.60) merge; two records
with identical coordinates, partyServed "SMITH J" vs "JONES R" and name
similarity 6/7 (high: above 0.85) do not. -/
theorem grouping_merge_rule_amended :
    (∀ (n : Notice) (groups : List LocGroup),
        addToGroups n groups = amendedAdd n groups) ∧
    name_similarity cEx1.name cEx2.name = mkRat 2 3 ∧
    (runGrouping [cEx1, cEx2]).map LocGroup.penalties = [[cEx1, cEx2]] ∧
    name_similarity dEx1.name dEx2.name = mkRat 6 7 ∧
    (runGrouping [dEx1, dEx2]).map LocGroup.penalties = [[dEx1], [dEx2]] := by
  refine ⟨?_, ?_, ?_, ?_, ?_⟩
  · intro n groups
    induction groups with
    | nil => rfl
    | cons g gs ih => simp [addToGroups, amendedAdd, matchesGroup_eq_amended, ih]
  · decide
  · decide
  · set_option maxRecDepth 4000 in decide
  · set_option maxRecDepth 8000 in decide

/-! ## C2: address-cache mutation -/

/-- Geocoder oracle for the C2 counterexample: the full address of
`cacheNoticeB` fails and its 4-token variant resolves to (1,1); the full
address of `cacheNoticeC` resolves directly to (2,2). -/
def oracleC2 : String → Option (ℚ × ℚ) :=
  fun s =>
    if s = "B, P Q R S" then some (mkRat 2 1, mkRat 2 1)
    else if s = "P Q R S" then some (mkRat 1 1, mkRat 1 1)
    else none

def cacheNoticeB : Notice := { full := "A, P Q R S" }

def cacheNoticeC : Notice := { full := "B, P Q R S" }

/-- C2 counterexample: resolving `cacheNoticeB` stores the shared variant
key "P Q R S" with coordinates (1,1); resolving `cacheNoticeC` afterwards
geocodes its own full address to (2,2) and overwrites the entry under
"P Q R S" with different coordinates, because the write-back loop assigns
under every variant unconditionally (2_geocode.py lines 199-200). -/
theorem cache_overwrite_counterexample :
    dictLookup (processNotice oracleC2 [] cacheNoticeB).2.1 "P Q R S"
      = some (mkRat 1 1, mkRat 1 1) ∧
    dictLookup (processNotice oracleC2
        (processNotice oracleC2 [] cacheNoticeB).2.1 cacheNoticeC).2.1 "P Q R S"
      = some (mkRat 2 1, mkRat 2 1) ∧
    (mkRat 1 1 : ℚ) ≠ mkRat 2 1 := by
  decide

/-- Overwriting assignment never removes a key from the dict. -/
theorem dictInsert_isSome (c : Cache) (key : String) (v : ℚ × ℚ) (k : String)
    (h : (dictLookup c k).isSome = true) :
    (dictLookup (dictInsert c key v) k).isSome = true := by
  induction c with
  | nil => simp [dictLookup] at h
  | cons p rest ih =>
    obtain ⟨k', v'⟩ := p
    by_cases hk : k' = key
    · simp only [dictInsert, if_pos hk]
      by_cases hkk : k' = k
      · simp [dictLookup, hkk]
      · simp only [dictLookup, if_neg hkk]
        simpa [dictLookup, hkk] using h
    · simp only [dictInsert, if_neg hk]
      by_cases hkk : k' = k
      · simp [dictLookup, hkk]
      · simp only [dictLookup, if_neg hkk]
        exact ih (by simpa [dictLookup, hkk] using h)

/-- The variant write-back fold never removes a key. -/
theorem foldl_dictInsert_isSome (coords : ℚ × ℚ) (l : List String) (c : Cache)
    (k : String) (h : (dictLookup c k).isSome = true) :
    (dictLookup (l.foldl (fun c v => dictInsert c (normalize_address v) coords) c) k).isSome
      = true := by
  induction l generalizing c with
  | nil => exact h
  | cons v vs ih => exact ih _ (dictInsert_isSome c (normalize_address v) coords k h)

/-- C2 (amended): cache mutation never removes an entry -- any key present
before a resolve step (or a whole batch) is still present afterwards --
but a later resolution may overwrite an entry reachable through a shared
variant key with different coordinates (last resolution wins on such
keys), as `cache_overwrite_counterexample` shows. -/
theorem cache_append_only_amended :
    (∀ (geocode : String → Option (ℚ × ℚ)) (cache : Cache) (n : Notice) (k : String),
      (dictLookup cache k).isSome = true →
      (dictLookup (processNotice geocode cache n).2.1 k).isSome = true) ∧
    (∀ (geocode : String → Option (ℚ × ℚ)) (cache : Cache) (ns : List Notice) (k : String),
      (dictLookup cache k).isSome = true →
      (dictLookup (processAll geocode cache ns).1 k).isSome = true) := by
  have single : ∀ (geocode : String → Option (ℚ × ℚ)) (cache : Cache) (n : Notice)
      (k : String), (dictLookup cache k).isSome = true →
      (dictLookup (processNotice geocode cache n).2.1 k).isSome = true := by
    intro geocode cache n k h
    unfold processNotice
    split
    · exact h
    · split
      · exact h
      · split
        · exact h
        · dsimp only
          rcases htv : tryVariants geocode (generate_address_variants n.full) with _ | ⟨la, lo⟩
          · simp only [htv]
            exact h
          · simp only [htv]
            exact foldl_dictInsert_isSome _ _ _ _ h
  refine ⟨single, ?_⟩
  intro geocode cache ns
  induction ns generalizing cache with
  | nil => intro k h; exact h
  | cons n rest ih =>
    intro k h
    exact ih _ k (single geocode cache n k h)

/-- Witness for the amended C2 statement: a one-entry cache keeps its entry
across a resolve step and across a batch. -/
theorem cache_append_only_amended_witness :
    (dictLookup (processNotice (fun _ => none)
        [("K", (mkRat 0 1, mkRat 0 1))] cacheNoticeB).2.1 "K").isSome = true ∧
    (dictLookup (processAll (fun _ => none)
        [("K", (mkRat 0 1, mkRat 0 1))] [cacheNoticeB]).1 "K").isSome = true :=
  ⟨cache_append_only_amended.1 (fun _ => none) _ cacheNoticeB "K" (by decide),
   cache_append_only_amended.2 (fun _ => none) _ [cacheNoticeB] "K" (by decide)⟩

/-! ## C9: geocoding failure atomicity -/

/-- If every variant fails against the geocoder, the variant loop fails. -/
theorem tryVariants_none (geocode : String → Option (ℚ × ℚ)) (l : List String)
    (h : ∀ v ∈ l, geocode v = none) : tryVariants geocode l = none := by
  induction l with
  | nil => rfl
  | cons v vs ih =>
    have hv := h v (by simp)
    simp only [tryVariants, hv]
    exact ih (fun w hw => h w (by simp [hw]))

/-- C9: for a record with address text, no coordinates, no cache hit, and
all of whose variants fail to geocode, the resolve step leaves the record
and the cache untouched and emits exactly one failure entry carrying the
record's name, its address text and the full variant list; and the batch
continues: processing `n :: rest` processes `rest` with the same cache and
just prepends the unchanged record and its single failure entry. -/
theorem geocode_failure_atomic
    (geocode : String → Option (ℚ × ℚ)) (cache : Cache) (n : Notice)
    (rest : List Notice)
    (hfull : n.full ≠ "") (hlat : n.lat = none) (hlon : n.lon = none)
    (hcache : dictLookup cache (normalize_address n.full) = none)
    (hfail : ∀ v ∈ generate_address_variants n.full, geocode v = none) :
    processNotice geocode cache n =
      (n, cache,
       some ⟨n.penalty_notice_number, n.name, n.full,
             generate_address_variants n.full⟩) ∧
    processAll geocode cache (n :: rest) =
      ((processAll geocode cache rest).1,
       n :: (processAll geocode cache rest).2.1,
       (⟨n.penalty_notice_number, n.name, n.full,
         generate_address_variants n.full⟩ : FailEntry)
         :: (processAll geocode cache rest).2.2) := by
  have hstep : processNotice geocode cache n =
      (n, cache,
       some ⟨n.penalty_notice_number, n.name, n.full,
             generate_address_variants n.full⟩) := by
    unfold processNotice
    rw [if_neg hfull]
    rw [if_neg (by simp [hlat])]
    rw [hcache]
    dsimp only
    rw [tryVariants_none geocode _ hfail]
  refine ⟨hstep, ?_⟩
  show (let step := processNotice geocode cache n
        let tail := processAll geocode step.2.1 rest
        (tail.1, step.1 :: tail.2.1,
         match step.2.2 with
         | some f => f :: tail.2.2
         | none => tail.2.2)) = _
  rw [hstep]

/-- Witness for C9: a concrete record, an always-failing geocoder, an empty
cache and an empty remainder of the batch. -/
theorem geocode_failure_atomic_witness :
    processNotice (fun _ => none) [] cacheNoticeB =
      (cacheNoticeB, [],
       some ⟨cacheNoticeB.penalty_notice_number, cacheNoticeB.name, cacheNoticeB.full,
             generate_address_variants cacheNoticeB.full⟩) ∧
    processAll (fun _ => none) [] [cacheNoticeB] =
      ((processAll (fun _ => none) [] ([] : List Notice)).1,
       cacheNoticeB :: (processAll (fun _ => none) [] ([] : List Notice)).2.1,
       (⟨cacheNoticeB.penalty_notice_number, cacheNoticeB.name, cacheNoticeB.full,
         generate_address_variants cacheNoticeB.full⟩ : FailEntry)
         :: (processAll (fun _ => none) [] ([] : List Notice)).2.2) :=
  geocode_failure_atomic (fun _ => none) [] cacheNoticeB []
    (by decide) (by decide) (by decide) (by decide) (fun v _ => rfl)

/-! ## C4: member-count conservation -/

/-- All members of all groups, in group order. -/
def penJoin (gs : List LocGroup) : List Notice :=
  (gs.map LocGroup.penalties).flatten

theorem addToGroups_penJoin (n : Notice) (gs : List LocGroup) :
    (penJoin (addToGroups n gs)).Perm (n :: penJoin gs) := by
  induction gs with
  | nil => simp [addToGroups, penJoin, newGroup]
  | cons g rest ih =>
    by_cases h : matchesGroup n g = true
    · simp only [addToGroups, if_pos h, penJoin, List.map_cons, List.flatten_cons, mergeInto]
      rw [List.append_assoc]
      exact List.perm_middle
    · simp only [addToGroups, if_neg h, penJoin, List.map_cons, List.flatten_cons]
      exact (ih.append_left g.penalties).trans List.perm_middle

theorem foldl_addNotice_penJoin (l : List Notice) (gs : List LocGroup) :
    (penJoin (l.foldl addNotice gs)).Perm (penJoin gs ++ l) := by
  induction l generalizing gs with
  | nil => simp
  | cons n rest ih =>
    simp only [List.foldl_cons]
    exact ((ih _).trans ((addToGroups_penJoin n gs).append_right rest)).trans
      List.perm_middle.symm

theorem orderedInsert_perm (le : α → α → Bool) (x : α) (l : List α) :
    (orderedInsert le x l).Perm (x :: l) := by
  induction l with
  | nil => exact List.Perm.refl _
  | cons y t ih =>
    by_cases h : le x y = true
    · simp [orderedInsert, h]
    · simp only [orderedInsert, if_neg h]
      exact (ih.cons y).trans (List.Perm.swap x y t)

theorem insertionSort_perm (le : α → α → Bool) (l : List α) :
    (insertionSort le l).Perm l := by
  induction l with
  | nil => exact List.Perm.refl _
  | cons x t ih =>
    exact (orderedInsert_perm le x _).trans (ih.cons x)

theorem sortGroups_perm (gs : List LocGroup) : (sortGroups gs).Perm gs :=
  insertionSort_perm _ gs

theorem sortPenalties_perm (ps : List Notice) : (sortPenalties ps).Perm ps :=
  insertionSort_perm _ ps

theorem penJoin_map_sortPen (gs : List LocGroup) :
    (penJoin (gs.map (fun g => { g with penalties := sortPenalties g.penalties }))).Perm
      (penJoin gs) := by
  induction gs with
  | nil => exact List.Perm.refl _
  | cons g rest ih =>
    simp only [List.map_cons, penJoin, List.flatten_cons]
    exact (sortPenalties_perm g.penalties).append ih

theorem penJoin_perm {gs1 gs2 : List LocGroup} (h : gs1.Perm gs2) :
    (penJoin gs1).Perm (penJoin gs2) :=
  (h.map LocGroup.penalties).flatten

/-- C4: the multiset of members across all output groups is exactly the
multiset of coordinate-bearing input records (records lacking a coordinate
appear in no group, coordinate-bearing records in exactly one), and the
total member count equals the number of coordinate-bearing inputs. -/
theorem member_count_conservation (notices : List Notice) :
    (penJoin (runGrouping notices)).Perm (notices.filter isGeocoded) ∧
    ((runGrouping notices).map (fun g => g.penalties.length)).sum
      = (notices.filter isGeocoded).length := by
  have hperm : (penJoin (runGrouping notices)).Perm (notices.filter isGeocoded) := by
    simp only [runGrouping]
    have h3 := foldl_addNotice_penJoin (notices.filter isGeocoded) ([] : List LocGroup)
    have h4 : penJoin ([] : List LocGroup) ++ notices.filter isGeocoded
        = notices.filter isGeocoded := by simp [penJoin]
    rw [h4] at h3
    exact ((penJoin_map_sortPen _).trans (penJoin_perm (sortGroups_perm _))).trans h3
  refine ⟨hperm, ?_⟩
  have hlen := hperm.length_eq
  simpa [penJoin, List.length_flatten, List.map_map, Function.comp] using hlen

/-! ## C5: coordinate-gated matching -/

/-- Exact rational subtraction agrees with ordinary subtraction. -/
theorem qsub_eq_sub (a b : ℚ) : qsub a b = a - b := by
  have ha : ((a.den : ℚ)) ≠ 0 := by exact_mod_cast a.den_nz
  have hb : ((b.den : ℚ)) ≠ 0 := by exact_mod_cast b.den_nz
  conv_rhs => rw [← Rat.num_div_den a, ← Rat.num_div_den b]
  rw [div_sub_div _ _ ha hb, qsub, Rat.mkRat_eq_div]
  push_cast
  ring

/-- A point always matches its own coordinates. -/
theorem coordinates_match_self (x y : ℚ) : coordinates_match x y x y = true := by
  unfold coordinates_match
  simp only [qsub_eq_sub, sub_self]
  have h0 : qabs 0 = 0 := by simp [qabs]
  rw [h0]
  decide

/-- A merged record's coordinates match the group's. -/
theorem matchesGroup_coords (n : Notice) (g : LocGroup)
    (h : matchesGroup n g = true) :
    coordinates_match (n.lat.getD 0) (n.lon.getD 0) g.lat g.lon = true := by
  cases hcm : coordinates_match (n.lat.getD 0) (n.lon.getD 0) g.lat g.lon
  · exfalso
    simp only [matchesGroup, hcm] at h
    simp at h
  · rfl

/-- One grouping step preserves the member-coordinates invariant. -/
theorem addToGroups_coords_inv (n : Notice) (gs : List LocGroup)
    (h : ∀ g ∈ gs, ∀ p ∈ g.penalties,
      coordinates_match (p.lat.getD 0) (p.lon.getD 0) g.lat g.lon = true) :
    ∀ g ∈ addToGroups n gs, ∀ p ∈ g.penalties,
      coordinates_match (p.lat.getD 0) (p.lon.getD 0) g.lat g.lon = true := by
  induction gs with
  | nil =>
    intro g hg p hp
    simp only [addToGroups, List.mem_singleton] at hg
    subst hg
    simp only [newGroup, List.mem_singleton] at hp
    subst hp
    exact coordinates_match_self _ _
  | cons g0 rest ih =>
    by_cases hm : matchesGroup n g0 = true
    · intro g hg p hp
      simp only [addToGroups, if_pos hm, List.mem_cons] at hg
      rcases hg with hg | hg
      · subst hg
        simp only [mergeInto, List.mem_append, List.mem_singleton] at hp
        rcases hp with hp | hp
        · exact h g0 (by simp) p hp
        · subst hp
          show coordinates_match (p.lat.getD 0) (p.lon.getD 0) g0.lat g0.lon = true
          exact matchesGroup_coords _ _ hm
      · exact h g (by simp [hg]) p hp
    · intro g hg p hp
      simp only [addToGroups, if_neg hm, List.mem_cons] at hg
      rcases hg with hg | hg
      · subst hg
        exact h g (by simp) p hp
      · exact ih (fun g' hg' => h g' (by simp [hg'])) g hg p hp

/-- The fold preserves the member-coordinates invariant. -/
theorem foldl_addNotice_coords_inv (l : List Notice) (gs : List LocGroup)
    (h : ∀ g ∈ gs, ∀ p ∈ g.penalties,
      coordinates_match (p.lat.getD 0) (p.lon.getD 0) g.lat g.lon = true) :
    ∀ g ∈ l.foldl addNotice gs, ∀ p ∈ g.penalties,
      coordinates_match (p.lat.getD 0) (p.lon.getD 0) g.lat g.lon = true := by
  induction l generalizing gs with
  | nil => exact h
  | cons n rest ih => exact ih (addNotice gs n) (addToGroups_coords_inv n gs h)

/-- C5: every member of every output group has coordinates within epsilon
of the group's coordinates; a record is never merged into a group whose
coordinates do not match; and the merge test never consults the 0.85
threshold -- it agrees everywhere with the test whose threshold is fixed
to the exact-coordinate one, so the non-exact branch is dead. -/
theorem coordinate_gated_matching :
    (∀ (notices : List Notice), ∀ g ∈ runGrouping notices, ∀ p ∈ g.penalties,
      coordinates_match (p.lat.getD 0) (p.lon.getD 0) g.lat g.lon = true) ∧
    (∀ (n : Notice) (g : LocGroup),
      coordinates_match (n.lat.getD 0) (n.lon.getD 0) g.lat g.lon = false →
      matchesGroup n g = false) ∧
    (∀ (n : Notice) (g : LocGroup), matchesGroup n g = matchesGroupExactOnly n g) := by
  refine ⟨?_, ?_, ?_⟩
  · intro notices g hg p hp
    have hfold := foldl_addNotice_coords_inv (notices.filter isGeocoded) []
      (by intro g hg; simp at hg)
    simp only [runGrouping, List.mem_map] at hg
    obtain ⟨g0, hg0, rfl⟩ := hg
    have hg0' : g0 ∈ (notices.filter isGeocoded).foldl addNotice [] :=
      (sortGroups_perm _).mem_iff.mp hg0
    have hp' : p ∈ g0.penalties := (sortPenalties_perm g0.penalties).mem_iff.mp hp
    exact hfold g0 hg0' p hp'
  · intro n g hcm
    simp only [matchesGroup, hcm]
    rfl
  · intro n g
    simp only [matchesGroup, matchesGroupExactOnly]
    cases hcm : coordinates_match (n.lat.getD 0) (n.lon.getD 0) g.lat g.lon <;>
      simp [hcm]

/-- A notice roughly 15 km away from the origin group. -/
def farNotice : Notice :=
  { name := "ABC", lat := some (mkRat 1 1), lon := some (mkRat 1 1) }

/-- Witness for C5: the single member of the single group produced from
one record matches its group's coordinates, and a far-away record does
not match that group. -/
theorem coordinate_gated_matching_witness :
    coordinates_match ((cEx1 : Notice).lat.getD 0) (cEx1.lon.getD 0)
      (newGroup cEx1).lat (newGroup cEx1).lon = true ∧
    matchesGroup farNotice (newGroup cEx1) = false :=
  ⟨coordinate_gated_matching.1 [cEx1] (newGroup cEx1) (by decide) cEx1 (by decide),
   coordinate_gated_matching.2.1 farNotice (newGroup cEx1) (by decide)⟩

/-! ## C6: variant generation contract -/

/-- Every variant the scan loop appends has at least 4 tokens. -/
theorem variantLoopF_tokens (full : List Char) (fuel : Nat) (current : List Char)
    (i : Nat) (acc : List (List Char))
    (hacc : ∀ v ∈ acc, 4 ≤ (splitTokens v).length) :
    ∀ v ∈ variantLoopF full fuel current i acc, 4 ≤ (splitTokens v).length := by
  induction fuel generalizing current i acc with
  | zero => exact hacc
  | succ fuel ih =>
    intro v hv
    simp only [variantLoopF] at hv
    split at hv
    · split at hv
      · split at hv
        · refine ih _ _ _ ?_ v hv
          intro w hw
          split at hw
          · rcases List.mem_append.mp hw with hw | hw
            · exact hacc w hw
            · rw [List.mem_singleton.mp hw]
              assumption
          · exact hacc w hw
        · exact hacc v hv
      · exact ih _ _ _ hacc v hv
    · exact hacc v hv

/-- Deduplication only keeps elements of its input. -/
theorem dedupeNormAux_subset (seen l : List (List Char)) :
    ∀ v ∈ dedupeNormAux seen l, v ∈ l := by
  induction l generalizing seen with
  | nil => intro v hv; simp [dedupeNormAux] at hv
  | cons w rest ih =>
    intro v hv
    simp only [dedupeNormAux] at hv
    split at hv
    · exact List.mem_cons_of_mem w (ih seen v hv)
    · rcases List.mem_cons.mp hv with hv | hv
      · simp [hv]
      · exact List.mem_cons_of_mem w (ih _ v hv)

/-- Deduplication emits pairwise distinct normalized forms, none of them
already seen. -/
theorem dedupeNormAux_pairwise (seen l : List (List Char)) :
    (dedupeNormAux seen l).Pairwise (fun u v => normAddrL u ≠ normAddrL v) ∧
    ∀ v ∈ dedupeNormAux seen l, normAddrL v ∉ seen := by
  induction l generalizing seen with
  | nil => simp [dedupeNormAux]
  | cons w rest ih =>
    simp only [dedupeNormAux]
    split
    · exact ih seen
    · rename_i hnotin
      obtain ⟨hpw, hseen⟩ := ih (normAddrL w :: seen)
      refine ⟨List.Pairwise.cons ?_ hpw, ?_⟩
      · intro v hv
        have := hseen v hv
        simp only [List.mem_cons, not_or] at this
        exact fun he => this.1 he.symm
      · intro v hv
        rcases List.mem_cons.mp hv with hv | hv
        · subst hv; exact hnotin
        · have := hseen v hv
          simp only [List.mem_cons, not_or] at this
          exact this.2

/-- C6: for every non-empty address, the variant list is non-empty, starts
with the input itself, has pairwise distinct normalized entries, and every
entry after the first has at least 4 tokens (stripping stops before going
below 4 tokens); on the spec's example the output contains the full string
and "14 Main Street, Cambridge Gardens, 2747" but not
"Cambridge Gardens, 2747". -/
theorem variant_generation_contract :
    (∀ x : String, x ≠ "" →
      generate_address_variants x ≠ [] ∧
      (generate_address_variants x).head? = some x ∧
      (generate_address_variants x).Pairwise
        (fun u v => normalize_address u ≠ normalize_address v) ∧
      ∀ v ∈ (generate_address_variants x).tail, 4 ≤ (splitTokens v.data).length) ∧
    "Shop 2, 14 Main Street, Cambridge Gardens, 2747"
      ∈ generate_address_variants "Shop 2, 14 Main Street, Cambridge Gardens, 2747" ∧
    "14 Main Street, Cambridge Gardens, 2747"
      ∈ generate_address_variants "Shop 2, 14 Main Street, Cambridge Gardens, 2747" ∧
    "Cambridge Gardens, 2747"
      ∉ generate_address_variants "Shop 2, 14 Main Street, Cambridge Gardens, 2747" := by
  refine ⟨?_, by decide, by decide, by decide⟩
  intro x _
  have hshape : generate_address_variants x =
      String.mk x.data ::
        (dedupeNormAux [normAddrL x.data]
          (variantLoopF x.data (variantFuel x.data.length) x.data 0 [])).map String.mk := by
    simp [generate_address_variants, dedupeNormAux]
  refine ⟨?_, ?_, ?_, ?_⟩
  · rw [hshape]; exact List.cons_ne_nil _ _
  · rw [hshape]; rfl
  · have hpair := (dedupeNormAux_pairwise [] (x.data ::
      variantLoopF x.data (variantFuel x.data.length) x.data 0 [])).1
    have : (generate_address_variants x).Pairwise
        (fun u v => normAddrL u.data ≠ normAddrL v.data) := by
      unfold generate_address_variants
      refine (List.pairwise_map.mpr ?_)
      exact hpair
    refine this.imp ?_
    intro u v h he
    exact h (congrArg String.data he)
  · rw [hshape]
    intro v hv
    simp only [List.tail_cons, List.mem_map] at hv
    obtain ⟨w, hw, rfl⟩ := hv
    have hw' := dedupeNormAux_subset _ _ w hw
    have := variantLoopF_tokens x.data (variantFuel x.data.length) x.data 0 []
      (by intro z hz; simp at hz) w hw'
    exact this

/-- Witness for C6 at a concrete non-empty address. -/
theorem variant_generation_contract_witness :
    generate_address_variants "A, P Q R S" ≠ [] ∧
    (generate_address_variants "A, P Q R S").head? = some "A, P Q R S" ∧
    (generate_address_variants "A, P Q R S").Pairwise
      (fun u v => normalize_address u ≠ normalize_address v) ∧
    ∀ v ∈ (generate_address_variants "A, P Q R S").tail,
      4 ≤ (splitTokens v.data).length :=
  variant_generation_contract.1 "A, P Q R S" (by decide)

/-! ## C10: termination of variant generation -/

/-- The loop measure of the variant scan: strictly decreases on every
recursive call of `variantLoopF`. -/
def variantMeasure (current : List Char) (i : Nat) : Nat :=
  current.length * current.length + (current.length - i)

theorem length_dropWhile_le (p : α → Bool) (l : List α) :
    (l.dropWhile p).length ≤ l.length := by
  induction l with
  | nil => simp
  | cons a t ih => by_cases h : p a <;> simp [List.dropWhile, h] <;> omega

theorem trimL_length_le (s : List Char) : (trimL s).length ≤ s.length := by
  unfold trimL
  simp only [List.length_reverse]
  exact le_trans (length_dropWhile_le _ _)
    (by simpa using length_dropWhile_le pyIsSpace s)

/-- C10: each restart of the scan loop replaces the working string by the
trimmed remainder after the current delimiter, which is strictly shorter;
hence the measure `len² + (len - i)` strictly decreases on every recursive
call and the loop is fuel-independent as soon as the fuel exceeds the
measure -- the scan cannot run forever, and `generate_address_variants`
(whose fuel `variantFuel` exceeds the measure) computes the loop's limit. -/
theorem variant_generation_terminates :
    (∀ (current : List Char) (i : Nat), i < current.length →
      (trimL (current.drop (i + 1))).length < current.length) ∧
    (∀ (full current : List Char) (i : Nat) (acc : List (List Char)) (f1 f2 : Nat),
      variantMeasure current i < f1 → variantMeasure current i < f2 →
      variantLoopF full f1 current i acc = variantLoopF full f2 current i acc) := by
  have hshort : ∀ (current : List Char) (i : Nat), i < current.length →
      (trimL (current.drop (i + 1))).length < current.length := by
    intro current i hi
    have h1 := trimL_length_le (current.drop (i + 1))
    have h2 : (current.drop (i + 1)).length = current.length - (i + 1) := by
      simp [List.length_drop]
    omega
  refine ⟨hshort, ?_⟩
  intro full
  suffices main : ∀ (m : Nat) (current : List Char) (i : Nat) (acc : List (List Char))
      (f1 f2 : Nat), variantMeasure current i = m → m < f1 → m < f2 →
      variantLoopF full f1 current i acc = variantLoopF full f2 current i acc by
    intro current i acc f1 f2 h1 h2
    exact main (variantMeasure current i) current i acc f1 f2 rfl h1 h2
  intro m
  induction m using Nat.strong_induction_on with
  | _ m ih =>
    intro current i acc f1 f2 hm h1 h2
    obtain ⟨a, rfl⟩ : ∃ a, f1 = a + 1 := ⟨f1 - 1, by omega⟩
    obtain ⟨b, rfl⟩ : ∃ b, f2 = b + 1 := ⟨f2 - 1, by omega⟩
    by_cases hi : i < current.length
    · simp only [variantLoopF, dif_pos hi]
      by_cases hc : isScanSpecial (current.get ⟨i, hi⟩) = true
      · simp only [if_pos hc]
        by_cases ht : 4 ≤ (splitTokens (trimL (current.drop (i + 1)))).length
        · simp only [if_pos ht]
          have hL' := hshort current i hi
          have hmeas : variantMeasure (trimL (current.drop (i + 1))) 0 < m := by
            subst hm
            unfold variantMeasure
            have hstep : (((trimL (current.drop (i + 1))).length + 1) *
                ((trimL (current.drop (i + 1))).length + 1)) ≤
                current.length * current.length :=
              Nat.mul_le_mul (Nat.succ_le_of_lt hL') (Nat.succ_le_of_lt hL')
            have hexp : (((trimL (current.drop (i + 1))).length + 1) *
                ((trimL (current.drop (i + 1))).length + 1)) =
                (trimL (current.drop (i + 1))).length *
                  (trimL (current.drop (i + 1))).length +
                2 * (trimL (current.drop (i + 1))).length + 1 := by ring
            have h3 : (trimL (current.drop (i + 1))).length *
                (trimL (current.drop (i + 1))).length +
                (trimL (current.drop (i + 1))).length <
                current.length * current.length := by
              rw [hexp] at hstep
              omega
            omega
          exact ih _ hmeas _ 0 _ a b rfl (by omega) (by omega)
        · simp only [if_neg ht]
      · simp only [if_neg hc]
        have hmeas : variantMeasure current (i + 1) < m := by
          subst hm
          unfold variantMeasure
          omega
        exact ih _ hmeas current (i + 1) acc a b rfl (by omega) (by omega)
    · simp only [variantLoopF, dif_neg hi]

/-- Witness for C10 at a concrete working string and fuels. -/
theorem variant_generation_terminates_witness :
    (trimL ((['A', ',', 'B'] : List Char).drop (1 + 1))).length < 3 ∧
    variantLoopF ['A'] 3 ['A'] 0 [] = variantLoopF ['A'] 4 ['A'] 0 [] :=
  ⟨variant_generation_terminates.1 ['A', ',', 'B'] 1 (by decide),
   variant_generation_terminates.2 ['A'] ['A'] 0 [] 3 4 (by decide) (by decide)⟩

/-! ## C7: name similarity -/

theorem cpl_le_left : ∀ (x y : List Char), cpl x y ≤ x.length := by
  intro x
  induction x with
  | nil => intro y; cases y <;> simp [cpl]
  | cons c cs ih =>
    intro y
    cases y with
    | nil => simp [cpl]
    | cons d ds =>
      by_cases h : c = d <;> simp [cpl, h]
      exact ih ds

theorem cpl_le_right : ∀ (x y : List Char), cpl x y ≤ y.length := by
  intro x
  induction x with
  | nil => intro y; cases y <;> simp [cpl]
  | cons c cs ih =>
    intro y
    cases y with
    | nil => simp [cpl]
    | cons d ds =>
      by_cases h : c = d <;> simp [cpl, h]
      exact ih ds

/-- Fold invariant with membership of the step element. -/
theorem foldl_inv_mem {α β : Type _} (P : β → Prop) (f : β → α → β) :
    ∀ (l : List α) (init : β), P init → (∀ b a, a ∈ l → P b → P (f b a)) →
      P (l.foldl f init) := by
  intro l
  induction l with
  | nil => intro init h _; exact h
  | cons x t ih =>
    intro init h hs
    exact ih _ (hs init x (by simp) h) (fun b a ha hb => hs b a (by simp [ha]) hb)

/-- The longest matching block fits inside both strings. -/
theorem findBest_bounds (a b : List Char) :
    (findBest a b).2.1 + (findBest a b).1 ≤ a.length ∧
    (findBest a b).2.2 + (findBest a b).1 ≤ b.length := by
  unfold findBest
  apply foldl_inv_mem
    (P := fun best : Nat × Nat × Nat =>
      best.2.1 + best.1 ≤ a.length ∧ best.2.2 + best.1 ≤ b.length)
  · simp
  · intro best i hi hbest
    apply foldl_inv_mem
      (P := fun best : Nat × Nat × Nat =>
        best.2.1 + best.1 ≤ a.length ∧ best.2.2 + best.1 ≤ b.length)
    · exact hbest
    · intro best' j hj hbest'
      dsimp only
      split
      · have hka := cpl_le_left (a.drop i) (b.drop j)
        have hkb := cpl_le_right (a.drop i) (b.drop j)
        have hi' : i < a.length := List.mem_range.mp hi
        have hj' : j < b.length := List.mem_range.mp hj
        have hda : (a.drop i).length = a.length - i := by simp
        have hdb : (b.drop j).length = b.length - j := by simp
        constructor
        · show i + cpl (a.drop i) (b.drop j) ≤ a.length
          omega
        · show j + cpl (a.drop i) (b.drop j) ≤ b.length
          omega
      · exact hbest'

/-- The total matched size is bounded by both string lengths. -/
theorem matchTotalF_le (fuel : Nat) : ∀ (a b : List Char),
    matchTotalF fuel a b ≤ a.length ∧ matchTotalF fuel a b ≤ b.length := by
  induction fuel with
  | zero => intro a b; simp [matchTotalF]
  | succ fuel ih =>
    intro a b
    simp only [matchTotalF]
    split
    · exact ⟨Nat.zero_le _, Nat.zero_le _⟩
    · obtain ⟨hia, hjb⟩ := findBest_bounds a b
      obtain ⟨l1, l2⟩ := ih (a.take (findBest a b).2.1) (b.take (findBest a b).2.2)
      obtain ⟨r1, r2⟩ := ih (a.drop ((findBest a b).2.1 + (findBest a b).1))
        (b.drop ((findBest a b).2.2 + (findBest a b).1))
      simp only [List.length_take, List.length_drop] at l1 l2 r1 r2
      exact ⟨by omega, by omega⟩

theorem matchTotal_le (a b : List Char) :
    matchTotal a b ≤ a.length ∧ matchTotal a b ≤ b.length :=
  matchTotalF_le _ a b

theorem mkRat_nat_nonneg (s l : Nat) : 0 ≤ mkRat (s : ℤ) l := by
  rw [Rat.mkRat_eq_div]
  positivity

theorem mkRat_nat_le_one (s l : Nat) (h : s ≤ l) (hl : 0 < l) :
    mkRat (s : ℤ) l ≤ 1 := by
  rw [Rat.mkRat_eq_div]
  rw [div_le_one (by exact_mod_cast hl)]
  exact_mod_cast h

/-- The diff ratio lies in [0, 1]. -/
theorem ratioQ_bounds (a b : List Char) : 0 ≤ ratioQ a b ∧ ratioQ a b ≤ 1 := by
  simp only [ratioQ]
  split
  · norm_num
  · rename_i ht
    constructor
    · exact mkRat_nat_nonneg _ _
    · apply mkRat_nat_le_one
      · obtain ⟨h1, h2⟩ := matchTotal_le a b
        omega
      · omega

theorem string_ne_empty_length {s : String} (h : s ≠ "") : 0 < s.length := by
  obtain ⟨data⟩ := s
  cases data with
  | nil => exact absurd rfl h
  | cons c cs => simp [String.length]

/-- C7: nameSimilarity always lies in [0, 1]; it is 0 when either
trimmed-uppercased name is empty; when one normalized name is contained in
the other (and neither is empty) it is max(0.70, shorterLen/longerLen);
otherwise it is the diff-style matching-blocks ratio of the normalized
names; and the two spec examples hold. -/
theorem name_similarity_contract :
    (∀ a b : String, 0 ≤ name_similarity a b ∧ name_similarity a b ≤ 1) ∧
    (∀ a b : String, normalize_name a = "" ∨ normalize_name b = "" →
      name_similarity a b = 0) ∧
    (∀ a b : String, normalize_name a ≠ "" → normalize_name b ≠ "" →
      (isSubL (normalize_name a).data (normalize_name b).data = true ∨
       isSubL (normalize_name b).data (normalize_name a).data = true) →
      name_similarity a b =
        (if mkRat ((min (normalize_name a).length (normalize_name b).length : ℕ) : ℤ)
              (max (normalize_name a).length (normalize_name b).length) < mkRat 7 10
         then mkRat 7 10
         else mkRat ((min (normalize_name a).length (normalize_name b).length : ℕ) : ℤ)
              (max (normalize_name a).length (normalize_name b).length))) ∧
    (∀ a b : String, normalize_name a ≠ "" → normalize_name b ≠ "" →
      isSubL (normalize_name a).data (normalize_name b).data = false →
      isSubL (normalize_name b).data (normalize_name a).data = false →
      name_similarity a b = ratioQ (normalize_name a).data (normalize_name b).data) ∧
    mkRat 7 10 ≤ name_similarity "KFC" "KFC MACARTHUR SQUARE" ∧
    name_similarity "" "ANYTHING" = 0 := by
  refine ⟨?_, ?_, ?_, ?_, by decide, by decide⟩
  · intro a b
    simp only [name_similarity]
    split
    · norm_num
    · split
      · split
        · split
          · exact ⟨by decide, by decide⟩
          · rename_i hlpos hge
            refine ⟨mkRat_nat_nonneg _ _, mkRat_nat_le_one _ _ ?_ hlpos⟩
            exact min_le_max
        · exact ratioQ_bounds _ _
      · exact ratioQ_bounds _ _
  · intro a b h
    simp only [name_similarity]
    rw [if_pos h]
  · intro a b ha hb hsub
    have hmax : 0 < max (normalize_name a).length (normalize_name b).length :=
      lt_of_lt_of_le (string_ne_empty_length ha) (le_max_left _ _)
    simp only [name_similarity]
    rw [if_neg (by push_neg; exact ⟨ha, hb⟩)]
    rw [if_pos (Bool.or_eq_true _ _ |>.mpr hsub)]
    rw [if_pos hmax]
  · intro a b ha hb hsx hsy
    simp only [name_similarity]
    rw [if_neg (by push_neg; exact ⟨ha, hb⟩)]
    rw [if_neg (by simp [hsx, hsy])]

/-- Witness for C7 at concrete inputs for each hypothesis-bearing clause. -/
theorem name_similarity_contract_witness :
    name_similarity "" "X" = 0 ∧
    name_similarity "AB" "ABC" =
      (if mkRat ((min (normalize_name "AB").length (normalize_name "ABC").length : ℕ) : ℤ)
            (max (normalize_name "AB").length (normalize_name "ABC").length) < mkRat 7 10
       then mkRat 7 10
       else mkRat ((min (normalize_name "AB").length (normalize_name "ABC").length : ℕ) : ℤ)
            (max (normalize_name "AB").length (normalize_name "ABC").length)) ∧
    name_similarity "AB" "CD" =
      ratioQ (normalize_name "AB").data (normalize_name "CD").data :=
  ⟨name_similarity_contract.2.1 "" "X" (by decide),
   name_similarity_contract.2.2.1 "AB" "ABC" (by decide) (by decide) (by decide),
   name_similarity_contract.2.2.2.1 "AB" "CD" (by decide) (by decide) (by decide) (by decide)⟩

/-! ## C8 machinery -/

theorem name_similarity_empty (a b : String)
    (h : normalize_name a = "" ∨ normalize_name b = "") : name_similarity a b = 0 := by
  simp only [name_similarity]
  rw [if_pos h]

theorem isPrefixOf_self : ∀ (l : List Char), l.isPrefixOf l = true := by
  intro l
  induction l with
  | nil => rfl
  | cons c cs ih => simp [List.isPrefixOf, ih]

theorem isSubL_self (p : List Char) : isSubL p p = true := by
  cases p with
  | nil => rfl
  | cons c cs => simp [isSubL, isPrefixOf_self]

theorem name_similarity_self (x : String) (hx : normalize_name x ≠ "") :
    name_similarity x x = 1 := by
  have hlen := string_ne_empty_length hx
  simp only [name_similarity]
  rw [if_neg (by push_neg; exact ⟨hx, hx⟩)]
  rw [if_pos (by simp [isSubL_self])]
  rw [if_pos (by simpa using hlen)]
  simp only [Nat.min_self, Nat.max_self]
  have hone : mkRat (((normalize_name x).length : ℕ) : ℤ) (normalize_name x).length = 1 := by
    rw [Rat.mkRat_eq_div]
    push_cast
    rw [div_self (by exact_mod_cast hlen.ne')]
  rw [hone]
  rw [if_neg (by decide)]

theorem sim_ge_nonempty {x y : String} (h : mkRat 6 10 ≤ name_similarity x y) :
    normalize_name x ≠ "" ∧ normalize_name y ≠ "" := by
  constructor
  · intro hx
    rw [name_similarity_empty x y (Or.inl hx)] at h
    exact absurd h (by decide)
  · intro hy
    rw [name_similarity_empty x y (Or.inr hy)] at h
    exact absurd h (by decide)

theorem party_mismatchB_self (p : String) : party_mismatchB p p = false := by
  simp only [party_mismatchB]
  split
  · simp
  · rfl

theorem foldl_single_group (P : List String) :
    ∀ (l : List Notice) (g : LocGroup),
      g.party_served ∈ P →
      (∀ r ∈ l, coordinates_match (r.lat.getD 0) (r.lon.getD 0) g.lat g.lon = true) →
      (∀ r ∈ l, mkRat 6 10 ≤ name_similarity r.name g.name) →
      (∀ r ∈ l, r.party_served ∈ P) →
      (∀ p ∈ P, ∀ q ∈ P, party_mismatchB p q = false) →
      ∃ ps, l.foldl addNotice [g] =
          [{ g with penalties := g.penalties ++ l, party_served := ps }] ∧ ps ∈ P := by
  intro l
  induction l with
  | nil =>
    intro g hg _ _ _ _
    exact ⟨g.party_served, by simp, hg⟩
  | cons r rest ih =>
    intro g hg hco hsim hP hnomix
    have hmatch : matchesGroup r g = true := by
      simp only [matchesGroup, hco r (by simp)]
      simp only [if_true]
      split
      · rfl
      · have hms : party_mismatchB r.party_served g.party_served = false :=
          hnomix _ (hP r (by simp)) _ hg
        rw [hms]
        simp only [Bool.not_false, Bool.and_true]
        rw [decide_eq_true_iff]
        exact hsim r (by simp)
    have hstep : addNotice [g] r = [mergeInto g r] := by
      simp [addNotice, addToGroups, hmatch]
    have hgp : (mergeInto g r).party_served ∈ P := by
      simp only [mergeInto]
      split
      · exact hP r (by simp)
      · exact hg
    obtain ⟨ps, heq, hps⟩ := ih (mergeInto g r) hgp
      (by intro s hs
          show coordinates_match (s.lat.getD 0) (s.lon.getD 0) g.lat g.lon = true
          exact hco s (by simp [hs]))
      (by intro s hs
          show mkRat 6 10 ≤ name_similarity s.name g.name
          exact hsim s (by simp [hs]))
      (fun s hs => hP s (by simp [hs]))
      hnomix
    refine ⟨ps, ?_, hps⟩
    rw [List.foldl_cons, hstep, heq]
    congr 1
    show ({ g with penalties := (g.penalties ++ [r]) ++ rest, party_served := ps } : LocGroup)
      = { g with penalties := g.penalties ++ r :: rest, party_served := ps }
    simp [List.append_assoc]

/-- C8: grouping is deterministic, and for any three records with pairwise
matching coordinates, pairwise name similarity at least 0.60 (in both
directions, over the three pairs of positions), and no pair carrying
conflicting non-empty partyServed values, grouping any permutation of the
three yields a single group containing exactly the three records. -/
theorem grouping_order_insensitive
    (a b c : Notice) (l : List Notice)
    (hperm : l.Perm [a, b, c])
    (hgeo : ∀ r ∈ [a, b, c], isGeocoded r = true)
    (hcoords : ∀ r ∈ [a, b, c], ∀ s ∈ [a, b, c],
      coordinates_match (r.lat.getD 0) (r.lon.getD 0) (s.lat.getD 0) (s.lon.getD 0) = true)
    (hab : mkRat 6 10 ≤ name_similarity a.name b.name)
    (hba : mkRat 6 10 ≤ name_similarity b.name a.name)
    (hac : mkRat 6 10 ≤ name_similarity a.name c.name)
    (hca : mkRat 6 10 ≤ name_similarity c.name a.name)
    (hbc : mkRat 6 10 ≤ name_similarity b.name c.name)
    (hcb : mkRat 6 10 ≤ name_similarity c.name b.name)
    (hparty : ∀ r ∈ [a, b, c], ∀ s ∈ [a, b, c],
      party_mismatchB r.party_served s.party_served = false) :
    runGrouping l = runGrouping l ∧
    ∃ g, runGrouping l = [g] ∧
      (g.penalties : Multiset Notice) = (([a, b, c] : List Notice) : Multiset Notice) := by
  refine ⟨rfl, ?_⟩
  have hselfsim : ∀ r ∈ [a, b, c], mkRat 6 10 ≤ name_similarity r.name r.name := by
    intro r hr
    have hne : normalize_name r.name ≠ "" := by
      rcases List.mem_cons.mp hr with h | hr
      · exact h ▸ (sim_ge_nonempty hab).1
      rcases List.mem_cons.mp hr with h | hr
      · exact h ▸ (sim_ge_nonempty hba).1
      rcases List.mem_cons.mp hr with h | hr
      · exact h ▸ (sim_ge_nonempty hca).1
      · simp at hr
    rw [name_similarity_self r.name hne]
    decide
  have hsimAll : ∀ r ∈ [a, b, c], ∀ s ∈ [a, b, c],
      mkRat 6 10 ≤ name_similarity r.name s.name := by
    intro r hr s hs
    simp only [List.mem_cons, List.mem_singleton, List.not_mem_nil, or_false] at hr hs
    rcases hr with rfl | rfl | rfl <;> rcases hs with rfl | rfl | rfl
    · exact hselfsim _ (by simp)
    · exact hab
    · exact hac
    · exact hba
    · exact hselfsim _ (by simp)
    · exact hbc
    · exact hca
    · exact hcb
    · exact hselfsim _ (by simp)
  have hmem : ∀ r ∈ l, r ∈ [a, b, c] := fun r hr => hperm.mem_iff.mp hr
  have hfilter : l.filter isGeocoded = l :=
    List.filter_eq_self.mpr (fun r hr => hgeo r (hmem r hr))
  cases l with
  | nil =>
    exfalso
    have := hperm.length_eq
    simp at this
  | cons h t =>
    have hmemh : h ∈ [a, b, c] := hmem h (by simp)
    have hmemt : ∀ r ∈ t, r ∈ [a, b, c] := fun r hr => hmem r (by simp [hr])
    set P : List String := [a.party_served, b.party_served, c.party_served] with hP
    have hpartyP : ∀ p ∈ P, ∀ q ∈ P, party_mismatchB p q = false := by
      intro p hp q hq
      rw [hP] at hp hq
      simp only [List.mem_cons, List.mem_singleton, List.not_mem_nil, or_false] at hp hq
      rcases hp with rfl | rfl | rfl <;> rcases hq with rfl | rfl | rfl <;>
        first
        | exact hparty a (by simp) a (by simp)
        | exact hparty a (by simp) b (by simp)
        | exact hparty a (by simp) c (by simp)
        | exact hparty b (by simp) a (by simp)
        | exact hparty b (by simp) b (by simp)
        | exact hparty b (by simp) c (by simp)
        | exact hparty c (by simp) a (by simp)
        | exact hparty c (by simp) b (by simp)
        | exact hparty c (by simp) c (by simp)
    have hpmem : ∀ r ∈ [a, b, c], r.party_served ∈ P := by
      intro r hr
      rw [hP]
      simp only [List.mem_cons, List.mem_singleton, List.not_mem_nil, or_false] at hr
      rcases hr with rfl | rfl | rfl <;> simp
    obtain ⟨ps, heq, _⟩ := foldl_single_group P t (newGroup h)
      (hpmem h hmemh)
      (by intro r hr
          show coordinates_match (r.lat.getD 0) (r.lon.getD 0)
            (h.lat.getD 0) (h.lon.getD 0) = true
          exact hcoords r (hmemt r hr) h hmemh)
      (by intro r hr
          show mkRat 6 10 ≤ name_similarity r.name h.name
          exact hsimAll r (hmemt r hr) h hmemh)
      (fun r hr => hpmem r (hmemt r hr))
      hpartyP
    have hrun : runGrouping (h :: t) =
        [{ newGroup h with
            penalties := sortPenalties ((newGroup h).penalties ++ t), party_served := ps }] := by
      simp only [runGrouping, hfilter]
      rw [show (h :: t).foldl addNotice [] = t.foldl addNotice [newGroup h] from rfl]
      rw [heq]
      rfl
    refine ⟨_, hrun, ?_⟩
    show ((sortPenalties ((newGroup h).penalties ++ t) : List Notice) : Multiset Notice) = _
    rw [Multiset.coe_eq_coe]
    exact (sortPenalties_perm _).trans (by exact hperm)

/-- The three records of the C8 witness and a permuted submission order. -/
def w1 : Notice :=
  { penalty_notice_number := "1", name := "ABC", party_served := "",
    lat := some (mkRat 0 1), lon := some (mkRat 0 1) }

def w2 : Notice :=
  { penalty_notice_number := "2", name := "ABC", party_served := "",
    lat := some (mkRat 0 1), lon := some (mkRat 0 1) }

def w3 : Notice :=
  { penalty_notice_number := "3", name := "ABC", party_served := "",
    lat := some (mkRat 0 1), lon := some (mkRat 0 1) }

/-- Witness for C8: three mutually similar records at one coordinate,
submitted in a permuted order, land in a single group of all three. -/
theorem grouping_order_insensitive_witness :
    runGrouping [w2, w3, w1] = runGrouping [w2, w3, w1] ∧
    ∃ g, runGrouping [w2, w3, w1] = [g] ∧
      (g.penalties : Multiset Notice) = (([w1, w2, w3] : List Notice) : Multiset Notice) :=
  grouping_order_insensitive w1 w2 w3 [w2, w3, w1]
    (by decide) (by decide) (by decide)
    (by decide) (by decide) (by decide) (by decide) (by decide) (by decide)
    (by decide)
